import Mathlib

/-!
Verification of the topic-tree subscriber management module (`src/main.py`).

The Python module maintains a trie of `TreeNode` objects, each holding a
`dict[str, TreeNode]` of children and a `set` of subscriber ids.  We embed the
trie as a nested inductive type: the `dict` becomes an association list of
`(key, child)` pairs (Python dicts have unique keys and preserve insertion
order, which the association-list operations below reproduce), and the `set`
becomes a `Finset String`.
-/

set_option autoImplicit false

namespace TopicTree

/-- A trie node: `children` is the dict mapping segment strings to child
nodes, `subscribers` is the set of subscriber ids at this node.
Mirrors Python `class TreeNode`. -/
inductive TreeNode : Type where
  | mk (children : List (String × TreeNode)) (subscribers : Finset String) : TreeNode

/-- The `children` dict of a node. -/
def TreeNode.children : TreeNode → List (String × TreeNode)
  | .mk cs _ => cs

/-- The `subscribers` set of a node. -/
def TreeNode.subscribers : TreeNode → Finset String
  | .mk _ s => s

/-- A fresh node, `TreeNode()` in Python: empty dict, empty set. -/
def TreeNode.empty : TreeNode := .mk [] ∅

/-- The keys of a node's `children` dict, in dict order. -/
def TreeNode.childKeys (n : TreeNode) : List String := n.children.map Prod.fst

@[simp] theorem TreeNode.children_mk (cs : List (String × TreeNode)) (s : Finset String) :
    (TreeNode.mk cs s).children = cs := rfl

@[simp] theorem TreeNode.subscribers_mk (cs : List (String × TreeNode)) (s : Finset String) :
    (TreeNode.mk cs s).subscribers = s := rfl

theorem TreeNode.eta (n : TreeNode) : TreeNode.mk n.children n.subscribers = n := by
  cases n; rfl

/-- Python dict lookup `d[k]` / membership `k in d`: the value at the first
(in a real dict, only) occurrence of key `k`. -/
def dictGet (k : String) : List (String × TreeNode) → Option TreeNode
  | [] => none
  | (k', v) :: rest => if k' = k then some v else dictGet k rest

/-- Python dict store `d[k] = v`: replace the binding of `k` if present,
otherwise append the new binding at the end (dict insertion order). -/
def dictSet (k : String) (v : TreeNode) : List (String × TreeNode) → List (String × TreeNode)
  | [] => [(k, v)]
  | (k', v') :: rest => if k' = k then (k, v) :: rest else (k', v') :: dictSet k v rest

@[simp] theorem dictGet_nil (k : String) : dictGet k [] = none := rfl

@[simp] theorem dictSet_nil (k : String) (v : TreeNode) : dictSet k v [] = [(k, v)] := rfl

theorem sizeOf_children_lt (cs : List (String × TreeNode)) (s : Finset String) :
    sizeOf cs < sizeOf (TreeNode.mk cs s) := by
  simp only [TreeNode.mk.sizeOf_spec]
  omega

theorem sizeOf_snd_lt_of_mem {k : String} {c : TreeNode} {cs : List (String × TreeNode)}
    (h : (k, c) ∈ cs) : sizeOf c < sizeOf cs := by
  have h1 : sizeOf (k, c) < sizeOf cs := List.sizeOf_lt_of_mem h
  have h2 : sizeOf (k, c) = 1 + sizeOf k + sizeOf c := rfl
  omega

theorem dictGet_mem {k : String} {c : TreeNode} {cs : List (String × TreeNode)}
    (h : dictGet k cs = some c) : (k, c) ∈ cs := by
  induction cs with
  | nil => simp [dictGet] at h
  | cons p rest ih =>
    obtain ⟨k', v⟩ := p
    by_cases hk : k' = k
    · subst hk
      simp [dictGet] at h
      subst h
      exact List.mem_cons_self _ _
    · simp [dictGet, hk] at h
      exact List.mem_cons_of_mem _ (ih h)

theorem sizeOf_dictGet_lt {k : String} {c : TreeNode} {cs : List (String × TreeNode)}
    {s : Finset String} (h : dictGet k cs = some c) : sizeOf c < sizeOf (TreeNode.mk cs s) := by
  have := sizeOf_snd_lt_of_mem (dictGet_mem h)
  have := sizeOf_children_lt cs s
  omega

theorem sizeOf_mem_lt_mk {e : String × TreeNode} {cs : List (String × TreeNode)}
    (s : Finset String) (he : e ∈ cs) : sizeOf e.2 < sizeOf (TreeNode.mk cs s) := by
  have h1 : sizeOf e.2 < sizeOf cs := by
    obtain ⟨a, b⟩ := e
    exact sizeOf_snd_lt_of_mem he
  have h2 := sizeOf_children_lt cs s
  omega

mutual

/-- Python `get_subscribers(root, topic_list)`: resolve a pattern (literals,
`*`, `**`) against the tree, returning the union of all matching subscriber
sets. -/
def get_subscribers (root : TreeNode) (topic_list : List String) : Finset String :=
  match topic_list with
  | [] => root.subscribers
  | head :: tail =>
    if head = "*" then
      get_subscribers_children root.children tail
    else if head = "**" then
      get_subscribers root tail ∪ get_subscribers_children root.children (head :: tail)
    else
      match h : dictGet head root.children with
      | some child => get_subscribers child tail
      | none => ∅
termination_by (sizeOf root, topic_list.length)
decreasing_by
  · cases root with
    | mk cs s => exact Prod.Lex.left _ _ (sizeOf_children_lt cs s)
  · exact Prod.Lex.right _ (Nat.lt_succ_self _)
  · cases root with
    | mk cs s => exact Prod.Lex.left _ _ (sizeOf_children_lt cs s)
  · cases root with
    | mk cs s => exact Prod.Lex.left _ _ (sizeOf_dictGet_lt h)

/-- The loop `for child in root.children.values(): subscribers |= get_subscribers(child, pat)`
unfolded over the association list. -/
def get_subscribers_children (cs : List (String × TreeNode)) (pat : List String) : Finset String :=
  match cs with
  | [] => ∅
  | (k, c) :: rest => get_subscribers c pat ∪ get_subscribers_children rest pat
termination_by (sizeOf cs, pat.length)
decreasing_by
  · exact Prod.Lex.left _ _ (by
      simp only [List.cons.sizeOf_spec, Prod.mk.sizeOf_spec]; omega)
  · exact Prod.Lex.left _ _ (by
      simp only [List.cons.sizeOf_spec]; omega)

end

/-- Python `add_subscriber(root, subscriber_id, topic_list)`: walk the path,
creating missing children (`node.children[topic] = TreeNode()`), then add the
id to the terminal node's set. Functional rendering of the in-place loop. -/
def add_subscriber (root : TreeNode) (subscriber_id : String) :
    List String → TreeNode
  | [] => .mk root.children (insert subscriber_id root.subscribers)
  | topic :: rest =>
    let child := match dictGet topic root.children with
      | some c => c
      | none => TreeNode.empty
    .mk (dictSet topic (add_subscriber child subscriber_id rest) root.children)
      root.subscribers

/-- Python `remove_subscriber(root, subscriber_id, topic_list)`: walk existing
children only; if a segment is missing, return unchanged; at the terminal node
`discard` the id. -/
def remove_subscriber (root : TreeNode) (subscriber_id : String) :
    List String → TreeNode
  | [] => .mk root.children (root.subscribers.erase subscriber_id)
  | topic :: rest =>
    match dictGet topic root.children with
    | some child =>
      .mk (dictSet topic (remove_subscriber child subscriber_id rest) root.children)
        root.subscribers
    | none => root

/-- Walk the tree along a literal path, returning the node there (if the whole
path exists). This is the walk both registration functions perform. -/
def pathLookup (root : TreeNode) : List String → Option TreeNode
  | [] => some root
  | topic :: rest =>
    match dictGet topic root.children with
    | some child => pathLookup child rest
    | none => none

mutual

/-- Python `get_subscribers_recursive(root)`: all subscribers at this node and
every descendant, by plain recursive descent. -/
def get_subscribers_recursive (root : TreeNode) : Finset String :=
  root.subscribers ∪ get_subscribers_recursive_children root.children
termination_by sizeOf root
decreasing_by
  cases root with
  | mk cs s => exact sizeOf_children_lt cs s

/-- The loop `for child in root.children.values(): subscribers |= get_subscribers_recursive(child)`
unfolded over the association list. -/
def get_subscribers_recursive_children (cs : List (String × TreeNode)) : Finset String :=
  match cs with
  | [] => ∅
  | (k, c) :: rest =>
    get_subscribers_recursive c ∪ get_subscribers_recursive_children rest
termination_by sizeOf cs
decreasing_by
  · simp only [List.cons.sizeOf_spec, Prod.mk.sizeOf_spec]; omega
  · simp only [List.cons.sizeOf_spec]; omega

end

mutual

/-- Instrumentation of `get_subscribers`: the list of (node, remaining
pattern) pairs on which the recursion is invoked, in invocation order.  A
node is identified by its key path from the root of the call (in the Python
original each node is a distinct object singly reachable from the root, so
the key path identifies it). -/
def visitsAux (path : List String) (root : TreeNode) (topic_list : List String) :
    List (List String × List String) :=
  match topic_list with
  | [] => [(path, [])]
  | head :: tail =>
    (path, head :: tail) ::
    (if head = "*" then visitsChildren path root.children tail
     else if head = "**" then
       visitsAux path root tail ++ visitsChildren path root.children (head :: tail)
     else
       match h : dictGet head root.children with
       | some child => visitsAux (path ++ [head]) child tail
       | none => [])
termination_by (sizeOf root, topic_list.length)
decreasing_by
  · cases root with
    | mk cs s => exact Prod.Lex.left _ _ (sizeOf_children_lt cs s)
  · exact Prod.Lex.right _ (Nat.lt_succ_self _)
  · cases root with
    | mk cs s => exact Prod.Lex.left _ _ (sizeOf_children_lt cs s)
  · cases root with
    | mk cs s => exact Prod.Lex.left _ _ (sizeOf_dictGet_lt h)

/-- The visits made by the `for child in children.values()` loops. -/
def visitsChildren (path : List String) (cs : List (String × TreeNode))
    (pat : List String) : List (List String × List String) :=
  match cs with
  | [] => []
  | (k, c) :: rest => visitsAux (path ++ [k]) c pat ++ visitsChildren path rest pat
termination_by (sizeOf cs, pat.length)
decreasing_by
  · exact Prod.Lex.left _ _ (by
      simp only [List.cons.sizeOf_spec, Prod.mk.sizeOf_spec]; omega)
  · exact Prod.Lex.left _ _ (by
      simp only [List.cons.sizeOf_spec]; omega)

end

/-- The (node, remaining-pattern) pairs evaluated by `get_subscribers root
topic_list`, nodes identified by key path from `root`. -/
def visits (root : TreeNode) (topic_list : List String) :
    List (List String × List String) :=
  visitsAux [] root topic_list

mutual

/-- Fuel-indexed version of `get_subscribers`: every recursive call burns one
unit of fuel, `none` means the fuel ran out before the call tree bottomed
out.  Used to state that the recursion terminates. -/
def get_subscribers_fuel : Nat → TreeNode → List String → Option (Finset String)
  | 0, _, _ => none
  | Nat.succ k, root, [] =>
    let _ := k
    some root.subscribers
  | Nat.succ k, root, head :: tail =>
    if head = "*" then get_subscribers_fuel_children k root.children tail
    else if head = "**" then
      match get_subscribers_fuel k root tail,
          get_subscribers_fuel_children k root.children (head :: tail) with
      | some a, some b => some (a ∪ b)
      | _, _ => none
    else
      match dictGet head root.children with
      | some child => get_subscribers_fuel k child tail
      | none => some ∅
termination_by k _ _ => (k, 0)
decreasing_by
  · exact Prod.Lex.left _ _ (Nat.lt_succ_self _)
  · exact Prod.Lex.left _ _ (Nat.lt_succ_self _)
  · exact Prod.Lex.left _ _ (Nat.lt_succ_self _)
  · exact Prod.Lex.left _ _ (Nat.lt_succ_self _)

/-- Fuel-indexed children loop: each child call receives the given fuel. -/
def get_subscribers_fuel_children :
    Nat → List (String × TreeNode) → List String → Option (Finset String)
  | _, [], _ => some ∅
  | k, (key, c) :: rest, pat =>
    let _ := key
    match get_subscribers_fuel k c pat, get_subscribers_fuel_children k rest pat with
    | some a, some b => some (a ∪ b)
    | _, _ => none
termination_by k cs _ => (k, 1 + sizeOf cs)
decreasing_by
  · exact Prod.Lex.right _ (by omega)
  · exact Prod.Lex.right _ (by
      simp only [List.cons.sizeOf_spec]; omega)

end

/-- Well-formed tree: at every node the children keys are pairwise distinct.
Always true of the Python structure, where `children` is a `dict`; the
association-list embedding must state it explicitly. -/
inductive WF : TreeNode → Prop where
  | mk : ∀ (cs : List (String × TreeNode)) (s : Finset String),
      (cs.map Prod.fst).Nodup → (∀ e ∈ cs, WF e.2) → WF (.mk cs s)

/-- Denotational pattern semantics: does the query pattern (first argument)
match the concrete topic path (second argument)?  `*` consumes exactly one
segment, `**` zero or more. -/
def patternMatches : List String → List String → Bool
  | [], [] => true
  | [], _ :: _ => false
  | head :: tail, p =>
    if head = "*" then
      match p with
      | [] => false
      | _ :: pt => patternMatches tail pt
    else if head = "**" then
      patternMatches tail p ||
        (match p with
         | [] => false
         | _ :: pt => patternMatches (head :: tail) pt)
    else
      match p with
      | [] => false
      | ph :: pt => ph = head && patternMatches tail pt
termination_by pat p => (pat.length, p.length)
decreasing_by
  · exact Prod.Lex.left _ _ (Nat.lt_succ_self _)
  · exact Prod.Lex.left _ _ (Nat.lt_succ_self _)
  · exact Prod.Lex.right _ (Nat.lt_succ_self _)
  · exact Prod.Lex.left _ _ (Nat.lt_succ_self _)

/-- A batch of registrations `(subscriber_id, topic_list)` applied in order
by `add_subscriber`. -/
def applyAll (regs : List (String × List String)) (t : TreeNode) : TreeNode :=
  regs.foldl (fun acc r => add_subscriber acc r.1 r.2) t

/-- There is a node at path `p` of `t` whose subscriber set contains `id`. -/
def memAt (t : TreeNode) (p : List String) (id : String) : Prop :=
  ∃ n, pathLookup t p = some n ∧ id ∈ n.subscribers

/-- Concrete node with one subscriber, for witnesses. -/
def leafX : TreeNode := .mk [] {"x"}

/-- Concrete one-child tree, for witnesses and counterexamples. -/
def sampleA : TreeNode := .mk [("a", leafX)] ∅

@[simp] theorem get_subscribers_nil (n : TreeNode) :
    get_subscribers n [] = n.subscribers := by
  rw [get_subscribers]

theorem get_subscribers_star (n : TreeNode) (tail : List String) :
    get_subscribers n ("*" :: tail) = get_subscribers_children n.children tail := by
  rw [get_subscribers]
  simp

theorem get_subscribers_dstar (n : TreeNode) (tail : List String) :
    get_subscribers n ("**" :: tail) =
      get_subscribers n tail ∪ get_subscribers_children n.children ("**" :: tail) := by
  rw [get_subscribers]
  simp

theorem get_subscribers_lit_some (n : TreeNode) (head : String) (tail : List String)
    (c : TreeNode) (h1 : head ≠ "*") (h2 : head ≠ "**")
    (h : dictGet head n.children = some c) :
    get_subscribers n (head :: tail) = get_subscribers c tail := by
  rw [get_subscribers]
  simp only [if_neg h1, if_neg h2]
  split <;> simp_all

theorem get_subscribers_lit_none (n : TreeNode) (head : String) (tail : List String)
    (h1 : head ≠ "*") (h2 : head ≠ "**")
    (h : dictGet head n.children = none) :
    get_subscribers n (head :: tail) = ∅ := by
  rw [get_subscribers]
  simp only [if_neg h1, if_neg h2]
  split <;> simp_all

@[simp] theorem get_subscribers_children_nil (pat : List String) :
    get_subscribers_children [] pat = ∅ := by
  rw [get_subscribers_children]

@[simp] theorem get_subscribers_children_cons (k : String) (c : TreeNode)
    (rest : List (String × TreeNode)) (pat : List String) :
    get_subscribers_children ((k, c) :: rest) pat =
      get_subscribers c pat ∪ get_subscribers_children rest pat := by
  rw [get_subscribers_children]

@[simp] theorem get_subscribers_recursive_children_nil :
    get_subscribers_recursive_children [] = ∅ := by
  rw [get_subscribers_recursive_children]

@[simp] theorem get_subscribers_recursive_children_cons (k : String) (c : TreeNode)
    (rest : List (String × TreeNode)) :
    get_subscribers_recursive_children ((k, c) :: rest) =
      get_subscribers_recursive c ∪ get_subscribers_recursive_children rest := by
  rw [get_subscribers_recursive_children]

theorem get_subscribers_recursive_eq (n : TreeNode) :
    get_subscribers_recursive n =
      n.subscribers ∪ get_subscribers_recursive_children n.children := by
  rw [get_subscribers_recursive]

@[simp] theorem dictGet_cons (k k' : String) (v : TreeNode) (rest : List (String × TreeNode)) :
    dictGet k ((k', v) :: rest) = if k' = k then some v else dictGet k rest := rfl

@[simp] theorem dictSet_cons (k k' : String) (v v' : TreeNode)
    (rest : List (String × TreeNode)) :
    dictSet k v ((k', v') :: rest) =
      if k' = k then (k, v) :: rest else (k', v') :: dictSet k v rest := rfl

theorem dictGet_dictSet_self (k : String) (v : TreeNode) (d : List (String × TreeNode)) :
    dictGet k (dictSet k v d) = some v := by
  induction d with
  | nil => simp
  | cons p rest ih =>
    obtain ⟨a, b⟩ := p
    by_cases hk : a = k <;> simp [hk, ih]

theorem dictGet_dictSet_ne {k k' : String} (v : TreeNode) (d : List (String × TreeNode))
    (h : k' ≠ k) : dictGet k' (dictSet k v d) = dictGet k' d := by
  induction d with
  | nil => simp [Ne.symm h]
  | cons p rest ih =>
    obtain ⟨a, b⟩ := p
    by_cases hk : a = k
    · subst hk
      simp [Ne.symm h]
    · by_cases hk' : a = k' <;> simp [hk, hk', ih, h]

theorem dictSet_dictSet (k : String) (v v' : TreeNode) (d : List (String × TreeNode)) :
    dictSet k v' (dictSet k v d) = dictSet k v' d := by
  induction d with
  | nil => simp
  | cons p rest ih =>
    obtain ⟨a, b⟩ := p
    by_cases hk : a = k <;> simp [hk, ih]

theorem dictSet_eq_of_dictGet {k : String} {v : TreeNode} {d : List (String × TreeNode)}
    (h : dictGet k d = some v) : dictSet k v d = d := by
  induction d with
  | nil => simp at h
  | cons p rest ih =>
    obtain ⟨a, b⟩ := p
    by_cases hk : a = k
    · subst hk
      simp_all
    · simp [hk] at h ⊢
      exact ih h

theorem mem_dictSet_self (k : String) (v : TreeNode) (d : List (String × TreeNode)) :
    (k, v) ∈ dictSet k v d := by
  induction d with
  | nil => simp
  | cons p rest ih =>
    obtain ⟨a, b⟩ := p
    by_cases hk : a = k <;> simp [hk, ih]

theorem mem_dictSet {e : String × TreeNode} {k : String} {v : TreeNode}
    {d : List (String × TreeNode)} (h : e ∈ dictSet k v d) : e = (k, v) ∨ e ∈ d := by
  induction d with
  | nil => simpa using h
  | cons p rest ih =>
    obtain ⟨a, b⟩ := p
    by_cases hk : a = k
    · subst hk
      rcases (by simpa using h : e = (a, v) ∨ e ∈ rest) with h' | h'
      · exact Or.inl h'
      · exact Or.inr (List.mem_cons_of_mem _ h')
    · rcases (by simpa [hk] using h : e = (a, b) ∨ e ∈ dictSet k v rest) with h' | h'
      · exact Or.inr (by simp [h'])
      · rcases ih h' with h'' | h''
        · exact Or.inl h''
        · exact Or.inr (List.mem_cons_of_mem _ h'')

theorem dictSet_map_fst_some {k : String} {v v' : TreeNode} {d : List (String × TreeNode)}
    (h : dictGet k d = some v') : (dictSet k v d).map Prod.fst = d.map Prod.fst := by
  induction d with
  | nil => simp at h
  | cons p rest ih =>
    obtain ⟨a, b⟩ := p
    by_cases hk : a = k
    · subst hk
      simp
    · simp [hk] at h ⊢
      exact ih h

theorem dictSet_map_fst_none {k : String} {v : TreeNode} {d : List (String × TreeNode)}
    (h : dictGet k d = none) : (dictSet k v d).map Prod.fst = d.map Prod.fst ++ [k] := by
  induction d with
  | nil => simp
  | cons p rest ih =>
    obtain ⟨a, b⟩ := p
    by_cases hk : a = k
    · subst hk
      simp at h
    · simp [hk] at h ⊢
      exact ih h

theorem mem_get_subscribers_children (cs : List (String × TreeNode)) (pat : List String)
    (x : String) :
    x ∈ get_subscribers_children cs pat ↔ ∃ e ∈ cs, x ∈ get_subscribers e.2 pat := by
  induction cs with
  | nil => simp
  | cons p rest ih =>
    obtain ⟨k, c⟩ := p
    simp [ih]

/-- C1: on a pattern headed by `**`, `get_subscribers` returns the union of
the zero-level branch (same node, tail pattern) and, over every child, the
recursive result of the unchanged full pattern. -/
theorem claim_C1 (n : TreeNode) (t : List String) :
    get_subscribers n ("**" :: t) =
      get_subscribers n t ∪ get_subscribers_children n.children ("**" :: t) ∧
    ∀ x, x ∈ get_subscribers n ("**" :: t) ↔
      x ∈ get_subscribers n t ∨ ∃ e ∈ n.children, x ∈ get_subscribers e.2 ("**" :: t) := by
  refine ⟨get_subscribers_dstar n t, fun x => ?_⟩
  rw [get_subscribers_dstar]
  simp [mem_get_subscribers_children]

/-- C6: on a pattern headed by `*`, `get_subscribers` is the union over all
children (regardless of key) of the result on the tail: `*` consumes exactly
one level of any name. -/
theorem claim_C6 (n : TreeNode) (t : List String) :
    get_subscribers n ("*" :: t) = get_subscribers_children n.children t ∧
    ∀ x, x ∈ get_subscribers n ("*" :: t) ↔
      ∃ e ∈ n.children, x ∈ get_subscribers e.2 t := by
  refine ⟨get_subscribers_star n t, fun x => ?_⟩
  rw [get_subscribers_star]
  exact mem_get_subscribers_children n.children t x

/-- C7: on a literal head `L`, `get_subscribers` recurses into the child
keyed `L` with the tail if it exists, and returns the empty set (not an
error) if it does not. -/
theorem claim_C7 (n : TreeNode) (L : String) (t : List String)
    (h1 : L ≠ "*") (h2 : L ≠ "**") :
    (∀ c, dictGet L n.children = some c →
      get_subscribers n (L :: t) = get_subscribers c t) ∧
    (dictGet L n.children = none → get_subscribers n (L :: t) = ∅) :=
  ⟨fun c hc => get_subscribers_lit_some n L t c h1 h2 hc,
   fun hc => get_subscribers_lit_none n L t h1 h2 hc⟩

/-- Witness for C7 at a concrete tree: child `"a"` exists, child `"b"` does
not. -/
theorem claim_C7_witness :
    get_subscribers sampleA ["a"] = get_subscribers leafX [] ∧
    get_subscribers sampleA ["b"] = ∅ :=
  ⟨(claim_C7 sampleA "a" [] (by decide) (by decide)).1 leafX rfl,
   (claim_C7 sampleA "b" [] (by decide) (by decide)).2 rfl⟩

theorem gs_rec_children_eq_dstar (cs : List (String × TreeNode))
    (H : ∀ e ∈ cs, get_subscribers_recursive e.2 = get_subscribers e.2 ["**"]) :
    get_subscribers_recursive_children cs = get_subscribers_children cs ["**"] := by
  induction cs with
  | nil => simp
  | cons p rest ih =>
    obtain ⟨k, c⟩ := p
    simp only [get_subscribers_recursive_children_cons, get_subscribers_children_cons]
    rw [H (k, c) (List.mem_cons_self _ _), ih (fun e he => H e (List.mem_cons_of_mem _ he))]

theorem subtree_eq (n : TreeNode) :
    get_subscribers_recursive n = get_subscribers n ["**"] := by
  cases n with
  | mk cs s =>
    rw [get_subscribers_recursive_eq, get_subscribers_dstar]
    simp only [get_subscribers_nil, TreeNode.children_mk, TreeNode.subscribers_mk]
    rw [gs_rec_children_eq_dstar cs (fun e he => subtree_eq e.2)]
termination_by sizeOf n
decreasing_by
  have h1 : sizeOf e.2 < sizeOf children := by
    obtain ⟨a, b⟩ := e
    exact sizeOf_snd_lt_of_mem he
  have h2 := sizeOf_children_lt children subscribers
  omega

/-- C2: the direct recursive collector `get_subscribers_recursive` computes
exactly `get_subscribers` with the single-element pattern `["**"]`. -/
theorem claim_C2 (n : TreeNode) :
    get_subscribers_recursive n = get_subscribers n ["**"] :=
  subtree_eq n

/-- C4: `add_subscriber` is idempotent — adding the same id on the same path
twice yields exactly the same tree as adding it once. -/
theorem claim_C4 (t : TreeNode) (id : String) (p : List String) :
    add_subscriber (add_subscriber t id p) id p = add_subscriber t id p := by
  induction p generalizing t with
  | nil => simp [add_subscriber]
  | cons h rest ih =>
    simp only [add_subscriber, TreeNode.children_mk, TreeNode.subscribers_mk,
      dictGet_dictSet_self]
    rw [ih, dictSet_dictSet]

/-- C5: `remove_subscriber` on a path that does not fully exist, or whose
terminal node does not contain the id, returns the tree unchanged. -/
theorem claim_C5 (t : TreeNode) (id : String) (p : List String)
    (h : pathLookup t p = none ∨
      ∃ n, pathLookup t p = some n ∧ id ∉ n.subscribers) :
    remove_subscriber t id p = t := by
  induction p generalizing t with
  | nil =>
    rcases h with h | ⟨n, hn, hid⟩
    · simp [pathLookup] at h
    · simp only [pathLookup, Option.some.injEq] at hn
      subst hn
      simp [remove_subscriber, Finset.erase_eq_of_not_mem hid, TreeNode.eta]
  | cons topic rest ih =>
    cases hd : dictGet topic t.children with
    | none => simp [remove_subscriber, hd]
    | some child =>
      have h' : pathLookup child rest = none ∨
          ∃ n, pathLookup child rest = some n ∧ id ∉ n.subscribers := by
        simpa [pathLookup, hd] using h
      simp [remove_subscriber, hd, ih child h', dictSet_eq_of_dictGet hd, TreeNode.eta]

/-- Witness for C5: removing along the missing path `["b"]` leaves the
sample tree untouched. -/
theorem claim_C5_witness : remove_subscriber sampleA "x" ["b"] = sampleA :=
  claim_C5 sampleA "x" ["b"] (Or.inl (by simp [pathLookup, sampleA, dictGet]))

theorem mem_add_step (id h : String) (rest : List String) (t c : TreeNode)
    (hmem : id ∈ get_subscribers (add_subscriber c id rest) rest)
    (hstep : add_subscriber t id (h :: rest) =
      TreeNode.mk (dictSet h (add_subscriber c id rest) t.children) t.subscribers) :
    id ∈ get_subscribers (add_subscriber t id (h :: rest)) (h :: rest) := by
  rw [hstep]
  by_cases h1 : h = "*"
  · subst h1
    rw [get_subscribers_star]
    rw [TreeNode.children_mk, mem_get_subscribers_children]
    exact ⟨("*", add_subscriber c id rest), mem_dictSet_self _ _ _, hmem⟩
  by_cases h2 : h = "**"
  · subst h2
    rw [get_subscribers_dstar]
    apply Finset.mem_union_right
    rw [TreeNode.children_mk, mem_get_subscribers_children]
    refine ⟨("**", add_subscriber c id rest), mem_dictSet_self _ _ _, ?_⟩
    rw [get_subscribers_dstar]
    exact Finset.mem_union_left _ hmem
  · rw [get_subscribers_lit_some _ h rest (add_subscriber c id rest) h1 h2
      (by rw [TreeNode.children_mk]; exact dictGet_dictSet_self h _ t.children)]
    exact hmem

theorem mem_add_self (id : String) (p : List String) (t : TreeNode) :
    id ∈ get_subscribers (add_subscriber t id p) p := by
  induction p generalizing t with
  | nil => simp [add_subscriber]
  | cons h rest ih =>
    cases hd : dictGet h t.children with
    | some c =>
      exact mem_add_step id h rest t c (ih c) (by simp [add_subscriber, hd])
    | none =>
      exact mem_add_step id h rest t TreeNode.empty (ih TreeNode.empty)
        (by simp [add_subscriber, hd])

/-- C10: after `add_subscriber t id p`, querying the very same `p` (whatever
its segments, including ones equal to the reserved tokens `*` or `**`)
returns a set containing `id`. -/
theorem claim_C10 (t : TreeNode) (id : String) (p : List String) :
    id ∈ get_subscribers (add_subscriber t id p) p :=
  mem_add_self id p t

@[simp] theorem pathLookup_nil (t : TreeNode) : pathLookup t [] = some t := rfl

theorem pathLookup_cons_some {t c : TreeNode} {x : String} (q : List String)
    (h : dictGet x t.children = some c) : pathLookup t (x :: q) = pathLookup c q := by
  simp [pathLookup, h]

theorem pathLookup_cons_none {t : TreeNode} {x : String} (q : List String)
    (h : dictGet x t.children = none) : pathLookup t (x :: q) = none := by
  simp [pathLookup, h]

theorem remove_shape (t : TreeNode) (id : String) (p q : List String) :
    (pathLookup (remove_subscriber t id p) q).map TreeNode.childKeys =
      (pathLookup t q).map TreeNode.childKeys := by
  induction p generalizing t q with
  | nil =>
    cases q with
    | nil => simp [remove_subscriber, TreeNode.childKeys]
    | cons x qr => simp [remove_subscriber, pathLookup]
  | cons topic pr ih =>
    cases hd : dictGet topic t.children with
    | none => simp [remove_subscriber, hd]
    | some child =>
      have hr : remove_subscriber t id (topic :: pr) =
          TreeNode.mk (dictSet topic (remove_subscriber child id pr) t.children)
            t.subscribers := by
        simp [remove_subscriber, hd]
      rw [hr]
      cases q with
      | nil => simp [TreeNode.childKeys, dictSet_map_fst_some hd]
      | cons x qr =>
        by_cases hx : x = topic
        · subst hx
          rw [pathLookup_cons_some qr (show dictGet x (TreeNode.mk
              (dictSet x (remove_subscriber child id pr) t.children)
              t.subscribers).children = some (remove_subscriber child id pr) from
              dictGet_dictSet_self x _ t.children),
            pathLookup_cons_some qr hd]
          exact ih child qr
        · cases hx2 : dictGet x t.children with
          | none =>
            rw [pathLookup_cons_none qr (by
                rw [TreeNode.children_mk, dictGet_dictSet_ne _ _ hx]; exact hx2),
              pathLookup_cons_none qr hx2]
          | some c2 =>
            rw [pathLookup_cons_some qr (by
                rw [TreeNode.children_mk, dictGet_dictSet_ne _ _ hx]; exact hx2),
              pathLookup_cons_some qr hx2]

theorem remove_outside (t : TreeNode) (id : String) (p q : List String) (hq : q ≠ p) :
    (pathLookup (remove_subscriber t id p) q).map TreeNode.subscribers =
      (pathLookup t q).map TreeNode.subscribers := by
  induction p generalizing t q with
  | nil =>
    cases q with
    | nil => exact absurd rfl hq
    | cons x qr => simp [remove_subscriber, pathLookup]
  | cons topic pr ih =>
    cases hd : dictGet topic t.children with
    | none => simp [remove_subscriber, hd]
    | some child =>
      have hr : remove_subscriber t id (topic :: pr) =
          TreeNode.mk (dictSet topic (remove_subscriber child id pr) t.children)
            t.subscribers := by
        simp [remove_subscriber, hd]
      rw [hr]
      cases q with
      | nil => simp
      | cons x qr =>
        by_cases hx : x = topic
        · subst hx
          have hqr : qr ≠ pr := fun hc => hq (by rw [hc])
          rw [pathLookup_cons_some qr (show dictGet x (TreeNode.mk
              (dictSet x (remove_subscriber child id pr) t.children)
              t.subscribers).children = some (remove_subscriber child id pr) from
              dictGet_dictSet_self x _ t.children),
            pathLookup_cons_some qr hd]
          exact ih child qr hqr
        · cases hx2 : dictGet x t.children with
          | none =>
            rw [pathLookup_cons_none qr (by
                rw [TreeNode.children_mk, dictGet_dictSet_ne _ _ hx]; exact hx2),
              pathLookup_cons_none qr hx2]
          | some c2 =>
            rw [pathLookup_cons_some qr (by
                rw [TreeNode.children_mk, dictGet_dictSet_ne _ _ hx]; exact hx2),
              pathLookup_cons_some qr hx2]

theorem remove_at (t : TreeNode) (id : String) (p : List String) :
    (pathLookup (remove_subscriber t id p) p).map TreeNode.subscribers =
      (pathLookup t p).map (fun n => n.subscribers.erase id) := by
  induction p generalizing t with
  | nil => simp [remove_subscriber]
  | cons topic pr ih =>
    cases hd : dictGet topic t.children with
    | none =>
      rw [show remove_subscriber t id (topic :: pr) = t by simp [remove_subscriber, hd],
        pathLookup_cons_none pr hd]
      simp
    | some child =>
      have hr : remove_subscriber t id (topic :: pr) =
          TreeNode.mk (dictSet topic (remove_subscriber child id pr) t.children)
            t.subscribers := by
        simp [remove_subscriber, hd]
      rw [hr,
        pathLookup_cons_some pr (show dictGet topic (TreeNode.mk
            (dictSet topic (remove_subscriber child id pr) t.children)
            t.subscribers).children = some (remove_subscriber child id pr) from
            dictGet_dictSet_self topic _ t.children),
        pathLookup_cons_some pr hd]
      exact ih child

/-- C8: `remove_subscriber` never deletes nodes: every path reaches a node
with the same children keys as before, every node off the removal path keeps
its subscriber set, and the terminal node's set merely loses `id` (possibly
becoming empty). -/
theorem claim_C8 (t : TreeNode) (id : String) (p : List String) :
    (∀ q, (pathLookup (remove_subscriber t id p) q).map TreeNode.childKeys =
      (pathLookup t q).map TreeNode.childKeys) ∧
    (∀ q, q ≠ p →
      (pathLookup (remove_subscriber t id p) q).map TreeNode.subscribers =
        (pathLookup t q).map TreeNode.subscribers) ∧
    (pathLookup (remove_subscriber t id p) p).map TreeNode.subscribers =
      (pathLookup t p).map (fun n => n.subscribers.erase id) :=
  ⟨fun q => remove_shape t id p q, fun q hq => remove_outside t id p q hq,
    remove_at t id p⟩

/-- Witness for C8: removing `"x"` below the sample tree leaves the root's
subscriber set intact. -/
theorem claim_C8_witness :
    (pathLookup (remove_subscriber sampleA "x" ["a"]) []).map TreeNode.subscribers =
      (pathLookup sampleA []).map TreeNode.subscribers :=
  (claim_C8 sampleA "x" ["a"]).2.1 [] (by decide)

@[simp] theorem pm_nil_nil : patternMatches [] [] = true := by
  rw [patternMatches]

@[simp] theorem pm_nil_cons (a : String) (p : List String) :
    patternMatches [] (a :: p) = false := by
  rw [patternMatches]

@[simp] theorem pm_star_nil (tail : List String) :
    patternMatches ("*" :: tail) [] = false := by
  rw [patternMatches]
  simp

@[simp] theorem pm_star_cons (tail : List String) (ph : String) (pt : List String) :
    patternMatches ("*" :: tail) (ph :: pt) = patternMatches tail pt := by
  rw [patternMatches]
  simp

@[simp] theorem pm_dstar_nil (tail : List String) :
    patternMatches ("**" :: tail) [] = patternMatches tail [] := by
  rw [patternMatches]
  simp

@[simp] theorem pm_dstar_cons (tail : List String) (ph : String) (pt : List String) :
    patternMatches ("**" :: tail) (ph :: pt) =
      (patternMatches tail (ph :: pt) || patternMatches ("**" :: tail) pt) := by
  rw [patternMatches]
  simp

theorem pm_lit_nil (head : String) (tail : List String)
    (h1 : head ≠ "*") (h2 : head ≠ "**") :
    patternMatches (head :: tail) [] = false := by
  rw [patternMatches]
  simp [h1, h2]

theorem pm_lit_cons (head : String) (tail : List String) (ph : String) (pt : List String)
    (h1 : head ≠ "*") (h2 : head ≠ "**") :
    patternMatches (head :: tail) (ph :: pt) =
      (decide (ph = head) && patternMatches tail pt) := by
  rw [patternMatches]
  simp [h1, h2]

theorem memAt_nil (t : TreeNode) (x : String) :
    memAt t [] x ↔ x ∈ t.subscribers := by
  simp [memAt]

theorem memAt_cons (t : TreeNode) (ph : String) (pt : List String) (x : String) :
    memAt t (ph :: pt) x ↔ ∃ c, dictGet ph t.children = some c ∧ memAt c pt x := by
  cases hd : dictGet ph t.children with
  | none => simp [memAt, pathLookup_cons_none pt hd, hd]
  | some c => simp [memAt, pathLookup_cons_some pt hd, hd]

theorem memAt_empty (p : List String) (x : String) : ¬ memAt TreeNode.empty p x := by
  cases p with
  | nil => simp [memAt_nil, TreeNode.empty]
  | cons ph pt => simp [memAt_cons, TreeNode.empty]

theorem dictGet_none_not_mem {k : String} {cs : List (String × TreeNode)}
    (h : dictGet k cs = none) : k ∉ cs.map Prod.fst := by
  induction cs with
  | nil => simp
  | cons p rest ih =>
    obtain ⟨a, b⟩ := p
    by_cases hk : a = k
    · simp [hk] at h
    · simp [hk] at h ⊢
      exact ⟨fun hc => hk hc.symm, fun x hx => ih h (List.mem_map.mpr ⟨(k, x), hx, rfl⟩)⟩

theorem dictGet_of_mem_nodup {k : String} {c : TreeNode} {cs : List (String × TreeNode)}
    (hnd : (cs.map Prod.fst).Nodup) (hm : (k, c) ∈ cs) : dictGet k cs = some c := by
  induction cs with
  | nil => simp at hm
  | cons p rest ih =>
    obtain ⟨a, b⟩ := p
    simp only [List.map_cons, List.nodup_cons] at hnd
    rcases List.mem_cons.mp hm with h' | h'
    · obtain ⟨ha, hb⟩ := Prod.mk.injEq .. ▸ h'
      simp [Prod.ext_iff] at h'
      simp [h'.1, h'.2]
    · have hk : a ≠ k := by
        intro hc
        subst hc
        exact hnd.1 (by simpa using ⟨c, h'⟩)
      simp [hk]
      exact ih hnd.2 h'

theorem WF_empty : WF TreeNode.empty :=
  WF.mk [] ∅ (by simp) (by simp)

theorem WF_children {cs : List (String × TreeNode)} {s : Finset String}
    (h : WF (.mk cs s)) : (cs.map Prod.fst).Nodup ∧ ∀ e ∈ cs, WF e.2 := by
  cases h with
  | mk _ _ hnd hch => exact ⟨hnd, hch⟩

theorem WF_add (t : TreeNode) (id : String) (p : List String) (hw : WF t) :
    WF (add_subscriber t id p) := by
  induction p generalizing t with
  | nil =>
    cases hw with
    | mk cs s hnd hch => exact WF.mk cs _ hnd hch
  | cons h rest ih =>
    cases hw with
    | mk cs s hnd hch =>
      cases hd : dictGet h cs with
      | some c =>
        have hstep : add_subscriber (TreeNode.mk cs s) id (h :: rest) =
            TreeNode.mk (dictSet h (add_subscriber c id rest) cs) s := by
          simp [add_subscriber, hd]
        rw [hstep]
        refine WF.mk _ _ ?_ ?_
        · rw [dictSet_map_fst_some hd]
          exact hnd
        · intro e he
          rcases mem_dictSet he with h' | h'
          · rw [h']
            exact ih c (hch _ (dictGet_mem hd))
          · exact hch _ h'
      | none =>
        have hstep : add_subscriber (TreeNode.mk cs s) id (h :: rest) =
            TreeNode.mk (dictSet h (add_subscriber TreeNode.empty id rest) cs) s := by
          simp [add_subscriber, hd]
        rw [hstep]
        refine WF.mk _ _ ?_ ?_
        · rw [dictSet_map_fst_none hd]
          simp only [List.nodup_append, List.nodup_cons]
          exact ⟨hnd, by simp, by simpa using dictGet_none_not_mem hd⟩
        · intro e he
          rcases mem_dictSet he with h' | h'
          · rw [h']
            exact ih TreeNode.empty WF_empty
          · exact hch _ h'

theorem WF_applyAll (regs : List (String × List String)) (t : TreeNode) (hw : WF t) :
    WF (applyAll regs t) := by
  induction regs generalizing t with
  | nil => exact hw
  | cons r rs ih =>
    exact ih (add_subscriber t r.1 r.2) (WF_add t r.1 r.2 hw)

theorem memAt_cons_get {t c : TreeNode} {ph : String} (pt : List String) (x : String)
    (hd : dictGet ph t.children = some c) : memAt t (ph :: pt) x ↔ memAt c pt x := by
  rw [memAt_cons]
  constructor
  · rintro ⟨c', hc', hm⟩
    rw [hd] at hc'
    obtain rfl : c = c' := by injection hc'
    exact hm
  · intro hm
    exact ⟨c, hd, hm⟩

theorem memAt_cons_none {t : TreeNode} {ph : String} (pt : List String) (x : String)
    (hd : dictGet ph t.children = none) : ¬ memAt t (ph :: pt) x := by
  rw [memAt_cons]
  rintro ⟨c', hc', hm⟩
  rw [hd] at hc'
  exact Option.noConfusion hc'

theorem WF_node {t : TreeNode} (h : WF t) :
    (t.children.map Prod.fst).Nodup ∧ ∀ e ∈ t.children, WF e.2 := by
  cases h with
  | mk cs s hnd hch => exact ⟨hnd, hch⟩

theorem sizeOf_mem_children_lt {e : String × TreeNode} {t : TreeNode}
    (he : e ∈ t.children) : sizeOf e.2 < sizeOf t := by
  cases t with
  | mk cs s => exact sizeOf_mem_lt_mk s he

theorem sizeOf_dictGet_children_lt {k : String} {c : TreeNode} {t : TreeNode}
    (h : dictGet k t.children = some c) : sizeOf c < sizeOf t := by
  cases t with
  | mk cs s => exact sizeOf_dictGet_lt h

theorem gs_char (t : TreeNode) (pat : List String) (x : String) (hw : WF t) :
    x ∈ get_subscribers t pat ↔ ∃ p, patternMatches pat p = true ∧ memAt t p x := by
  obtain ⟨hnd, hch⟩ := WF_node hw
  cases pat with
  | nil =>
    simp only [get_subscribers_nil]
    constructor
    · intro hx
      exact ⟨[], pm_nil_nil, (memAt_nil t x).mpr hx⟩
    · rintro ⟨p, hpm, hmem⟩
      cases p with
      | nil => exact (memAt_nil t x).mp hmem
      | cons a q => simp at hpm
  | cons head tail =>
    by_cases h1 : head = "*"
    · subst h1
      rw [get_subscribers_star, mem_get_subscribers_children]
      constructor
      · rintro ⟨e, he, hxe⟩
        have hlt := sizeOf_mem_children_lt he
        obtain ⟨p', hpm, hmem⟩ := (gs_char e.2 tail x (hch e he)).mp hxe
        refine ⟨e.1 :: p', by simpa using hpm, ?_⟩
        rw [memAt_cons]
        refine ⟨e.2, ?_, hmem⟩
        exact dictGet_of_mem_nodup hnd (by obtain ⟨k, c⟩ := e; exact he)
      · rintro ⟨p, hpm, hmem⟩
        cases p with
        | nil => simp at hpm
        | cons ph pt =>
          rw [pm_star_cons] at hpm
          obtain ⟨c, hget, hm⟩ := (memAt_cons _ ph pt x).mp hmem
          have hlt := sizeOf_dictGet_children_lt hget
          exact ⟨(ph, c), dictGet_mem hget,
            (gs_char c tail x (hch _ (dictGet_mem hget))).mpr ⟨pt, hpm, hm⟩⟩
    · by_cases h2 : head = "**"
      · subst h2
        rw [get_subscribers_dstar, Finset.mem_union, mem_get_subscribers_children]
        constructor
        · rintro (hx | ⟨e, he, hxe⟩)
          · obtain ⟨p, hpm, hmem⟩ := (gs_char t tail x hw).mp hx
            refine ⟨p, ?_, hmem⟩
            cases p with
            | nil => simpa using hpm
            | cons a q => simp [hpm]
          · have hlt := sizeOf_mem_children_lt he
            obtain ⟨p', hpm, hmem⟩ := (gs_char e.2 ("**" :: tail) x (hch e he)).mp hxe
            refine ⟨e.1 :: p', by simp [hpm], ?_⟩
            rw [memAt_cons]
            refine ⟨e.2, ?_, hmem⟩
            exact dictGet_of_mem_nodup hnd (by obtain ⟨k, c⟩ := e; exact he)
        · rintro ⟨p, hpm, hmem⟩
          cases p with
          | nil =>
            rw [pm_dstar_nil] at hpm
            exact Or.inl ((gs_char t tail x hw).mpr ⟨[], hpm, hmem⟩)
          | cons ph pt =>
            rw [pm_dstar_cons, Bool.or_eq_true] at hpm
            rcases hpm with hpm | hpm
            · exact Or.inl ((gs_char t tail x hw).mpr ⟨ph :: pt, hpm, hmem⟩)
            · obtain ⟨c, hget, hm⟩ := (memAt_cons _ ph pt x).mp hmem
              have hlt := sizeOf_dictGet_children_lt hget
              exact Or.inr ⟨(ph, c), dictGet_mem hget,
                (gs_char c ("**" :: tail) x (hch _ (dictGet_mem hget))).mpr ⟨pt, hpm, hm⟩⟩
      · cases hd : dictGet head t.children with
        | none =>
          rw [get_subscribers_lit_none t head tail h1 h2 hd]
          simp only [Finset.not_mem_empty, false_iff, not_exists]
          intro p hp
          rcases hp with ⟨hpm, hmem⟩
          cases p with
          | nil =>
            rw [pm_lit_nil head tail h1 h2] at hpm
            exact Bool.noConfusion hpm
          | cons ph pt =>
            rw [pm_lit_cons head tail ph pt h1 h2, Bool.and_eq_true,
              decide_eq_true_eq] at hpm
            obtain ⟨c, hget, hm⟩ := (memAt_cons _ ph pt x).mp hmem
            rw [hpm.1, hd] at hget
            exact Option.noConfusion hget
        | some c =>
          rw [get_subscribers_lit_some t head tail c h1 h2 hd]
          have hlt := sizeOf_dictGet_children_lt hd
          constructor
          · intro hx
            obtain ⟨p', hpm, hm⟩ := (gs_char c tail x (hch _ (dictGet_mem hd))).mp hx
            refine ⟨head :: p', ?_, ?_⟩
            · rw [pm_lit_cons head tail head p' h1 h2]
              simp [hpm]
            · rw [memAt_cons]
              exact ⟨c, hd, hm⟩
          · rintro ⟨p, hpm, hmem⟩
            cases p with
            | nil =>
              rw [pm_lit_nil head tail h1 h2] at hpm
              exact Bool.noConfusion hpm
            | cons ph pt =>
              rw [pm_lit_cons head tail ph pt h1 h2, Bool.and_eq_true,
                decide_eq_true_eq] at hpm
              obtain ⟨c', hget, hm⟩ := (memAt_cons _ ph pt x).mp hmem
              rw [hpm.1, hd] at hget
              obtain rfl : c = c' := by injection hget
              exact (gs_char c tail x (hch _ (dictGet_mem hd))).mpr ⟨pt, hpm.2, hm⟩
termination_by (sizeOf t, pat.length)
decreasing_by
  all_goals
    first
    | exact Prod.Lex.right _ (Nat.lt_succ_self _)
    | exact Prod.Lex.left _ _ hlt
theorem memAt_add (t : TreeNode) (id' : String) (p' p : List String) (id : String) :
    memAt (add_subscriber t id' p') p id ↔ (id = id' ∧ p = p') ∨ memAt t p id := by
  induction p' generalizing t p with
  | nil =>
    cases p with
    | nil => simp [memAt_nil, add_subscriber]
    | cons ph pt => simp [memAt_cons, add_subscriber]
  | cons h' r' ih =>
    cases hd : dictGet h' t.children with
    | some c0 =>
      have hstep : add_subscriber t id' (h' :: r') =
          TreeNode.mk (dictSet h' (add_subscriber c0 id' r') t.children)
            t.subscribers := by
        simp [add_subscriber, hd]
      rw [hstep]
      cases p with
      | nil => simp [memAt_nil]
      | cons ph pt =>
        by_cases hph : ph = h'
        · subst hph
          rw [memAt_cons_get pt id (show dictGet ph (TreeNode.mk
              (dictSet ph (add_subscriber c0 id' r') t.children)
              t.subscribers).children = some (add_subscriber c0 id' r') from
              dictGet_dictSet_self ph _ t.children),
            ih c0 pt, memAt_cons_get pt id hd]
          simp
        · have hg : dictGet ph (TreeNode.mk
              (dictSet h' (add_subscriber c0 id' r') t.children)
              t.subscribers).children = dictGet ph t.children := by
            rw [TreeNode.children_mk]
            exact dictGet_dictSet_ne _ _ hph
          cases hg2 : dictGet ph t.children with
          | none =>
            rw [iff_false_intro (memAt_cons_none pt id (hg.trans hg2)),
              iff_false_intro (memAt_cons_none pt id hg2)]
            simp [hph]
          | some c =>
            rw [memAt_cons_get pt id (hg.trans hg2), memAt_cons_get pt id hg2]
            simp [hph]
    | none =>
      have hstep : add_subscriber t id' (h' :: r') =
          TreeNode.mk (dictSet h' (add_subscriber TreeNode.empty id' r') t.children)
            t.subscribers := by
        simp [add_subscriber, hd]
      rw [hstep]
      cases p with
      | nil => simp [memAt_nil]
      | cons ph pt =>
        by_cases hph : ph = h'
        · subst hph
          rw [memAt_cons_get pt id (show dictGet ph (TreeNode.mk
              (dictSet ph (add_subscriber TreeNode.empty id' r') t.children)
              t.subscribers).children = some (add_subscriber TreeNode.empty id' r') from
              dictGet_dictSet_self ph _ t.children),
            ih TreeNode.empty pt,
            iff_false_intro (memAt_cons_none pt id hd),
            iff_false_intro (memAt_empty pt id)]
          simp
        · have hg : dictGet ph (TreeNode.mk
              (dictSet h' (add_subscriber TreeNode.empty id' r') t.children)
              t.subscribers).children = dictGet ph t.children := by
            rw [TreeNode.children_mk]
            exact dictGet_dictSet_ne _ _ hph
          cases hg2 : dictGet ph t.children with
          | none =>
            rw [iff_false_intro (memAt_cons_none pt id (hg.trans hg2)),
              iff_false_intro (memAt_cons_none pt id hg2)]
            simp [hph]
          | some c =>
            rw [memAt_cons_get pt id (hg.trans hg2), memAt_cons_get pt id hg2]
            simp [hph]

theorem memAt_applyAll (regs : List (String × List String)) (t : TreeNode)
    (p : List String) (id : String) :
    memAt (applyAll regs t) p id ↔ (id, p) ∈ regs ∨ memAt t p id := by
  induction regs generalizing t with
  | nil => simp [applyAll]
  | cons r rs ih =>
    have hfold : applyAll (r :: rs) t = applyAll rs (add_subscriber t r.1 r.2) := rfl
    rw [hfold, ih, memAt_add]
    constructor
    · rintro (h | ⟨hid, hp⟩ | h)
      · exact Or.inl (List.mem_cons_of_mem _ h)
      · exact Or.inl (by
          rw [hid, hp]
          exact List.mem_cons_self _ _)
      · exact Or.inr h
    · rintro (h | h)
      · rcases List.mem_cons.mp h with h' | h'
        · exact Or.inr (Or.inl ⟨congrArg Prod.fst h', congrArg Prod.snd h'⟩)
        · exact Or.inl h'
      · exact Or.inr (Or.inr h)

/-- C9: the result of `get_subscribers` over a tree built by a batch of
`add_subscriber` registrations is invariant under permuting the batch. -/
theorem claim_C9 (regs1 regs2 : List (String × List String)) (pat : List String)
    (h : regs1.Perm regs2) :
    get_subscribers (applyAll regs1 TreeNode.empty) pat =
      get_subscribers (applyAll regs2 TreeNode.empty) pat := by
  ext x
  rw [gs_char _ pat x (WF_applyAll regs1 TreeNode.empty WF_empty),
    gs_char _ pat x (WF_applyAll regs2 TreeNode.empty WF_empty)]
  simp only [memAt_applyAll, iff_false_intro (memAt_empty _ _), or_false]
  constructor <;> rintro ⟨p, hpm, hmem⟩
  · exact ⟨p, hpm, h.mem_iff.mp hmem⟩
  · exact ⟨p, hpm, h.mem_iff.mpr hmem⟩

/-- Witness for C9: two concrete registrations applied in both orders give
the same `*`-query result. -/
theorem claim_C9_witness :
    get_subscribers (applyAll [("u", ["a"]), ("v", ["b"])] TreeNode.empty) ["*"] =
      get_subscribers (applyAll [("v", ["b"]), ("u", ["a"])] TreeNode.empty) ["*"] :=
  claim_C9 _ _ ["*"] (List.Perm.swap ("v", ["b"]) ("u", ["a"]) [])

@[simp] theorem visitsAux_nil (path : List String) (t : TreeNode) :
    visitsAux path t [] = [(path, [])] := by
  rw [visitsAux]

theorem visitsAux_star (path : List String) (t : TreeNode) (tl : List String) :
    visitsAux path t ("*" :: tl) =
      (path, "*" :: tl) :: visitsChildren path t.children tl := by
  rw [visitsAux]
  simp

theorem visitsAux_dstar (path : List String) (t : TreeNode) (tl : List String) :
    visitsAux path t ("**" :: tl) =
      (path, "**" :: tl) ::
        (visitsAux path t tl ++ visitsChildren path t.children ("**" :: tl)) := by
  rw [visitsAux]
  simp

theorem visitsAux_lit_some (path : List String) (t : TreeNode) (head : String)
    (tl : List String) (c : TreeNode) (h1 : head ≠ "*") (h2 : head ≠ "**")
    (hd : dictGet head t.children = some c) :
    visitsAux path t (head :: tl) =
      (path, head :: tl) :: visitsAux (path ++ [head]) c tl := by
  rw [visitsAux]
  simp only [if_neg h1, if_neg h2]
  split <;> simp_all

theorem visitsAux_lit_none (path : List String) (t : TreeNode) (head : String)
    (tl : List String) (h1 : head ≠ "*") (h2 : head ≠ "**")
    (hd : dictGet head t.children = none) :
    visitsAux path t (head :: tl) = [(path, head :: tl)] := by
  rw [visitsAux]
  simp only [if_neg h1, if_neg h2]
  split <;> simp_all

@[simp] theorem visitsChildren_nil (path : List String) (pat : List String) :
    visitsChildren path [] pat = [] := by
  rw [visitsChildren]

@[simp] theorem visitsChildren_cons (path : List String) (k : String) (c : TreeNode)
    (rest : List (String × TreeNode)) (pat : List String) :
    visitsChildren path ((k, c) :: rest) pat =
      visitsAux (path ++ [k]) c pat ++ visitsChildren path rest pat := by
  rw [visitsChildren]

theorem visits_sampleA_concrete :
    visits sampleA ["**", "**"] =
      [([], ["**", "**"]), ([], ["**"]), ([], []), (["a"], ["**"]), (["a"], []),
        (["a"], ["**", "**"]), (["a"], ["**"]), (["a"], [])] := by
  simp [visits, visitsAux_dstar, sampleA, leafX]

/-- Counterexample to C3 as stated: on the one-child tree `sampleA` and the
pattern `["**", "**"]` (which contains `"**"`), the recursion of
`get_subscribers` evaluates the pair (child node, remaining pattern `["**"]`)
twice, so the visit list is not duplicate-free. -/
theorem claim_C3_counterexample :
    "**" ∈ (["**", "**"] : List String) ∧ ¬ (visits sampleA ["**", "**"]).Nodup := by
  refine ⟨by decide, ?_⟩
  rw [visits_sampleA_concrete]
  decide

@[simp] theorem gs_fuel_zero (t : TreeNode) (p : List String) :
    get_subscribers_fuel 0 t p = none := by
  rw [get_subscribers_fuel]

@[simp] theorem gs_fuel_succ_nil (k : Nat) (t : TreeNode) :
    get_subscribers_fuel (k + 1) t [] = some t.subscribers := by
  rw [get_subscribers_fuel]

theorem gs_fuel_succ_star (k : Nat) (t : TreeNode) (tl : List String) :
    get_subscribers_fuel (k + 1) t ("*" :: tl) =
      get_subscribers_fuel_children k t.children tl := by
  rw [get_subscribers_fuel]
  simp

theorem gs_fuel_succ_dstar (k : Nat) (t : TreeNode) (tl : List String) :
    get_subscribers_fuel (k + 1) t ("**" :: tl) =
      match get_subscribers_fuel k t tl,
          get_subscribers_fuel_children k t.children ("**" :: tl) with
      | some a, some b => some (a ∪ b)
      | _, _ => none := by
  rw [get_subscribers_fuel]
  simp

theorem gs_fuel_succ_lit_some (k : Nat) (t : TreeNode) (head : String) (tl : List String)
    (c : TreeNode) (h1 : head ≠ "*") (h2 : head ≠ "**")
    (hd : dictGet head t.children = some c) :
    get_subscribers_fuel (k + 1) t (head :: tl) = get_subscribers_fuel k c tl := by
  rw [get_subscribers_fuel]
  simp [if_neg h1, if_neg h2, hd]

theorem gs_fuel_succ_lit_none (k : Nat) (t : TreeNode) (head : String) (tl : List String)
    (h1 : head ≠ "*") (h2 : head ≠ "**") (hd : dictGet head t.children = none) :
    get_subscribers_fuel (k + 1) t (head :: tl) = some ∅ := by
  rw [get_subscribers_fuel]
  simp [if_neg h1, if_neg h2, hd]

@[simp] theorem gs_fuel_children_nil (k : Nat) (p : List String) :
    get_subscribers_fuel_children k [] p = some ∅ := by
  rw [get_subscribers_fuel_children]

theorem gs_fuel_children_cons (k : Nat) (key : String) (c : TreeNode)
    (rest : List (String × TreeNode)) (p : List String) :
    get_subscribers_fuel_children k ((key, c) :: rest) p =
      match get_subscribers_fuel k c p, get_subscribers_fuel_children k rest p with
      | some a, some b => some (a ∪ b)
      | _, _ => none := by
  rw [get_subscribers_fuel_children]

theorem gs_fuel_children_converges (k : Nat)
    (H : ∀ t p, sizeOf t + p.length < k →
      get_subscribers_fuel k t p = some (get_subscribers t p)) :
    ∀ cs p, sizeOf cs + p.length < k →
      get_subscribers_fuel_children k cs p = some (get_subscribers_children cs p) := by
  intro cs
  induction cs with
  | nil =>
    intro p hp
    simp
  | cons e rest ih =>
    obtain ⟨key, c⟩ := e
    intro p hp
    have hsz : sizeOf ((key, c) :: rest : List (String × TreeNode)) =
        1 + (1 + sizeOf key + sizeOf c) + sizeOf rest := by
      simp only [List.cons.sizeOf_spec, Prod.mk.sizeOf_spec]
    have h1 : sizeOf c + p.length < k := by omega
    have h2 : sizeOf rest + p.length < k := by omega
    rw [gs_fuel_children_cons, H c p h1, ih p h2]
    simp

theorem gs_fuel_converges (k : Nat) (t : TreeNode) (p : List String)
    (hk : sizeOf t + p.length < k) :
    get_subscribers_fuel k t p = some (get_subscribers t p) := by
  induction k generalizing t p with
  | zero => omega
  | succ k ih =>
    cases p with
    | nil => simp
    | cons head tl =>
      have hct : sizeOf t.children < sizeOf t := by
        cases t with
        | mk cs s => exact sizeOf_children_lt cs s
      simp only [List.length_cons] at hk
      by_cases h1 : head = "*"
      · subst h1
        rw [gs_fuel_succ_star, get_subscribers_star]
        exact gs_fuel_children_converges k ih t.children tl (by omega)
      · by_cases h2 : head = "**"
        · subst h2
          rw [gs_fuel_succ_dstar, get_subscribers_dstar,
            ih t tl (by omega),
            gs_fuel_children_converges k ih t.children ("**" :: tl)
              (by simp only [List.length_cons]; omega)]
        · cases hd : dictGet head t.children with
          | some c =>
            have hcl := sizeOf_dictGet_children_lt hd
            rw [gs_fuel_succ_lit_some k t head tl c h1 h2 hd,
              get_subscribers_lit_some t head tl c h1 h2 hd]
            exact ih c tl (by omega)
          | none =>
            rw [gs_fuel_succ_lit_none k t head tl h1 h2 hd,
              get_subscribers_lit_none t head tl h1 h2 hd]

theorem mem_visitsChildren {e : List String × List String} (path : List String)
    (cs : List (String × TreeNode)) (p : List String) :
    e ∈ visitsChildren path cs p ↔
      ∃ kc ∈ cs, e ∈ visitsAux (path ++ [kc.1]) kc.2 p := by
  induction cs with
  | nil => simp
  | cons q rest ih =>
    obtain ⟨k, c⟩ := q
    simp only [visitsChildren_cons, List.mem_append, ih, List.mem_cons]
    constructor
    · rintro (h | ⟨kc, hkc, hh⟩)
      · exact ⟨(k, c), Or.inl rfl, h⟩
      · exact ⟨kc, Or.inr hkc, hh⟩
    · rintro ⟨kc, hkc | hkc, hh⟩
      · subst hkc
        exact Or.inl hh
      · exact Or.inr ⟨kc, hkc, hh⟩

theorem getElem_of_append_singleton {xs ys : List String} {a : String}
    (h : (xs ++ [a]) <+: ys) : ys[xs.length]? = some a := by
  obtain ⟨tail, htl⟩ := h
  rw [← htl, List.append_assoc, List.getElem?_append_right (Nat.le_refl _)]
  simp

theorem visits_prefix_len (path : List String) (t : TreeNode) (p : List String) :
    ∀ e ∈ visitsAux path t p, path <+: e.1 ∧ e.2.length ≤ p.length := by
  cases p with
  | nil =>
    intro e he
    simp only [visitsAux_nil, List.mem_singleton] at he
    subst he
    exact ⟨List.prefix_refl _, by simp⟩
  | cons head tl =>
    intro e he
    by_cases h1 : head = "*"
    · subst h1
      rw [visitsAux_star] at he
      rcases List.mem_cons.mp he with he' | he'
      · subst he'
        exact ⟨List.prefix_refl _, Nat.le_refl _⟩
      · obtain ⟨kc, hkc, hh⟩ := (mem_visitsChildren path t.children tl).mp he'
        obtain ⟨hpre, hlen⟩ := visits_prefix_len (path ++ [kc.1]) kc.2 tl e hh
        exact ⟨(List.prefix_append path [kc.1]).trans hpre, by
          simp only [List.length_cons]; omega⟩
    · by_cases h2 : head = "**"
      · subst h2
        rw [visitsAux_dstar] at he
        rcases List.mem_cons.mp he with he' | he'
        · subst he'
          exact ⟨List.prefix_refl _, Nat.le_refl _⟩
        · rcases List.mem_append.mp he' with he'' | he''
          · obtain ⟨hpre, hlen⟩ := visits_prefix_len path t tl e he''
            exact ⟨hpre, by simp only [List.length_cons]; omega⟩
          · obtain ⟨kc, hkc, hh⟩ :=
              (mem_visitsChildren path t.children ("**" :: tl)).mp he''
            obtain ⟨hpre, hlen⟩ := visits_prefix_len (path ++ [kc.1]) kc.2 ("**" :: tl) e hh
            exact ⟨(List.prefix_append path [kc.1]).trans hpre, hlen⟩
      · cases hd : dictGet head t.children with
        | none =>
          rw [visitsAux_lit_none path t head tl h1 h2 hd] at he
          simp only [List.mem_singleton] at he
          subst he
          exact ⟨List.prefix_refl _, Nat.le_refl _⟩
        | some c =>
          rw [visitsAux_lit_some path t head tl c h1 h2 hd] at he
          rcases List.mem_cons.mp he with he' | he'
          · subst he'
            exact ⟨List.prefix_refl _, Nat.le_refl _⟩
          · obtain ⟨hpre, hlen⟩ := visits_prefix_len (path ++ [head]) c tl e he'
            exact ⟨(List.prefix_append path [head]).trans hpre, by
              simp only [List.length_cons]; omega⟩
termination_by (sizeOf t, p.length)
decreasing_by
  all_goals
    first
    | exact Prod.Lex.right _ (Nat.lt_succ_self _)
    | exact Prod.Lex.left _ _ (sizeOf_mem_children_lt hkc)
    | exact Prod.Lex.left _ _ (sizeOf_dictGet_children_lt hd)

theorem visits_len_exact (path : List String) (t : TreeNode) (p : List String)
    (hp : p.count "**" = 0) :
    ∀ e ∈ visitsAux path t p, e.1.length + e.2.length = path.length + p.length := by
  cases p with
  | nil =>
    intro e he
    simp only [visitsAux_nil, List.mem_singleton] at he
    subst he
    simp
  | cons head tl =>
    have h2 : head ≠ "**" := by
      intro hc
      subst hc
      simp [List.count_cons] at hp
    have htl : tl.count "**" = 0 := by
      simp [List.count_cons] at hp
      omega
    intro e he
    by_cases h1 : head = "*"
    · subst h1
      rw [visitsAux_star] at he
      rcases List.mem_cons.mp he with he' | he'
      · subst he'
        simp
      · obtain ⟨kc, hkc, hh⟩ := (mem_visitsChildren path t.children tl).mp he'
        have := visits_len_exact (path ++ [kc.1]) kc.2 tl htl e hh
        simp only [List.length_append, List.length_singleton, List.length_cons, List.length_nil] at this ⊢
        omega
    · cases hd : dictGet head t.children with
      | none =>
        rw [visitsAux_lit_none path t head tl h1 h2 hd] at he
        simp only [List.mem_singleton] at he
        subst he
        simp
      | some c =>
        rw [visitsAux_lit_some path t head tl c h1 h2 hd] at he
        rcases List.mem_cons.mp he with he' | he'
        · subst he'
          simp
        · have := visits_len_exact (path ++ [head]) c tl htl e he'
          simp only [List.length_append, List.length_singleton, List.length_cons, List.length_nil] at this ⊢
          omega
termination_by (sizeOf t, p.length)
decreasing_by
  all_goals
    first
    | exact Prod.Lex.right _ (Nat.lt_succ_self _)
    | exact Prod.Lex.left _ _ (sizeOf_mem_children_lt hkc)
    | exact Prod.Lex.left _ _ (sizeOf_dictGet_children_lt hd)

theorem visits_len_lower (path : List String) (t : TreeNode) (tl : List String)
    (htl : tl.count "**" = 0) :
    ∀ e ∈ visitsAux path t ("**" :: tl),
      path.length + tl.length ≤ e.1.length + e.2.length := by
  intro e he
  rw [visitsAux_dstar] at he
  rcases List.mem_cons.mp he with he' | he'
  · subst he'
    simp only [List.length_cons]
    omega
  · rcases List.mem_append.mp he' with he'' | he''
    · have := visits_len_exact path t tl htl e he''
      omega
    · obtain ⟨kc, hkc, hh⟩ :=
        (mem_visitsChildren path t.children ("**" :: tl)).mp he''
      have := visits_len_lower (path ++ [kc.1]) kc.2 tl htl e hh
      simp only [List.length_append, List.length_singleton, List.length_cons, List.length_nil] at this
      omega
termination_by sizeOf t
decreasing_by
  exact sizeOf_mem_children_lt hkc

theorem visitsChildren_nodup (path : List String) (cs : List (String × TreeNode))
    (p : List String) (hnd : (cs.map Prod.fst).Nodup)
    (hvis : ∀ kc ∈ cs, (visitsAux (path ++ [kc.1]) kc.2 p).Nodup) :
    (visitsChildren path cs p).Nodup := by
  induction cs with
  | nil => simp
  | cons q rest ih =>
    obtain ⟨k, c⟩ := q
    simp only [List.map_cons, List.nodup_cons] at hnd
    rw [visitsChildren_cons]
    apply List.Nodup.append
    · exact hvis (k, c) (List.mem_cons_self _ _)
    · exact ih hnd.2 (fun kc hkc => hvis kc (List.mem_cons_of_mem _ hkc))
    · intro e he1 he2
      have h1 := (visits_prefix_len (path ++ [k]) c p e he1).1
      obtain ⟨kc, hkc, hh⟩ := (mem_visitsChildren path rest p).mp he2
      have h2 := (visits_prefix_len (path ++ [kc.1]) kc.2 p e hh).1
      have g1 := getElem_of_append_singleton h1
      have g2 := getElem_of_append_singleton h2
      rw [g1] at g2
      have hk : k = kc.1 := by injection g2
      exact hnd.1 (hk ▸ List.mem_map.mpr ⟨kc, hkc, rfl⟩)

theorem visits_nodup_le_one (path : List String) (t : TreeNode) (p : List String) :
    WF t → p.count "**" ≤ 1 → (visitsAux path t p).Nodup := by
  cases p with
  | nil =>
    intro _ _
    simp
  | cons head tl =>
    intro hw hp
    obtain ⟨hnd, hch⟩ := WF_node hw
    by_cases h1 : head = "*"
    · subst h1
      have htl : tl.count "**" ≤ 1 := by
        simp [List.count_cons] at hp
        omega
      rw [visitsAux_star, List.nodup_cons]
      refine ⟨?_, ?_⟩
      · intro hmem
        obtain ⟨kc, hkc, hh⟩ := (mem_visitsChildren path t.children tl).mp hmem
        have hpre := (visits_prefix_len (path ++ [kc.1]) kc.2 tl _ hh).1
        have := hpre.length_le
        simp only [List.length_append, List.length_singleton] at this
        omega
      · exact visitsChildren_nodup path t.children tl hnd
          (fun kc hkc => visits_nodup_le_one (path ++ [kc.1]) kc.2 tl (hch kc hkc) htl)
    · by_cases h2 : head = "**"
      · subst h2
        have htl : tl.count "**" = 0 := by
          simp [List.count_cons] at hp
          omega
        rw [visitsAux_dstar, List.nodup_cons]
        refine ⟨?_, ?_⟩
        · intro hmem
          rcases List.mem_append.mp hmem with he' | he'
          · have := (visits_prefix_len path t tl _ he').2
            simp only [List.length_cons] at this
            omega
          · obtain ⟨kc, hkc, hh⟩ :=
              (mem_visitsChildren path t.children ("**" :: tl)).mp he'
            have hpre := (visits_prefix_len (path ++ [kc.1]) kc.2 ("**" :: tl) _ hh).1
            have := hpre.length_le
            simp only [List.length_append, List.length_singleton] at this
            omega
        · apply List.Nodup.append
          · exact visits_nodup_le_one path t tl hw (by omega)
          · exact visitsChildren_nodup path t.children ("**" :: tl) hnd
              (fun kc hkc => visits_nodup_le_one (path ++ [kc.1]) kc.2 ("**" :: tl)
                (hch kc hkc) (by simp [List.count_cons, htl]))
          · intro e he1 he2
            have hz := visits_len_exact path t tl htl e he1
            obtain ⟨kc, hkc, hh⟩ :=
              (mem_visitsChildren path t.children ("**" :: tl)).mp he2
            have hl := visits_len_lower (path ++ [kc.1]) kc.2 tl htl e hh
            simp only [List.length_append, List.length_singleton] at hl
            omega
      · have htl : tl.count "**" ≤ 1 := by
          simp [List.count_cons] at hp
          omega
        cases hd : dictGet head t.children with
        | none =>
          rw [visitsAux_lit_none path t head tl h1 h2 hd]
          simp
        | some c =>
          rw [visitsAux_lit_some path t head tl c h1 h2 hd, List.nodup_cons]
          refine ⟨?_, ?_⟩
          · intro hmem
            have hpre := (visits_prefix_len (path ++ [head]) c tl _ hmem).1
            have := hpre.length_le
            simp only [List.length_append, List.length_singleton] at this
            omega
          · exact visits_nodup_le_one (path ++ [head]) c tl
              (hch _ (dictGet_mem hd)) htl
termination_by (sizeOf t, p.length)
decreasing_by
  all_goals
    first
    | exact Prod.Lex.right _ (Nat.lt_succ_self _)
    | exact Prod.Lex.left _ _ (sizeOf_mem_children_lt hkc)
    | exact Prod.Lex.left _ _ (sizeOf_dictGet_children_lt hd)

theorem WF_leafX : WF leafX := WF.mk [] {"x"} (by simp) (by simp)

theorem WF_sampleA : WF sampleA :=
  WF.mk [("a", leafX)] ∅ (by simp) (by
    intro e he
    simp only [List.mem_singleton] at he
    rw [he]
    exact WF_leafX)

/-- C3 (amended): `get_subscribers` over any finite tree and pattern
terminates — the fuel-indexed version converges to the total function — and,
over a well-formed tree, when the pattern contains at most one `**` token no
(node, remaining-pattern) pair is evaluated more than once.  (With two `**`
tokens a pair can recur; see the counterexample.) -/
theorem claim_C3 (t : TreeNode) (p : List String) :
    (∃ k, get_subscribers_fuel k t p = some (get_subscribers t p)) ∧
    (WF t → p.count "**" ≤ 1 → (visits t p).Nodup) := by
  constructor
  · exact ⟨sizeOf t + p.length + 1, gs_fuel_converges _ t p (by omega)⟩
  · intro hw hp
    exact visits_nodup_le_one [] t p hw hp

/-- Witness for C3 (amended) at the concrete sample tree and the pattern
`["**"]`. -/
theorem claim_C3_witness :
    (∃ k, get_subscribers_fuel k sampleA ["**"] =
      some (get_subscribers sampleA ["**"])) ∧
    (visits sampleA ["**"]).Nodup :=
  ⟨(claim_C3 sampleA ["**"]).1,
   (claim_C3 sampleA ["**"]).2 WF_sampleA (by decide)⟩

end TopicTree
